import Mathlib

/-!
Shallow embedding of the hybrid-search fusion engine of `server.py`
(UESTC-Forum-Hybrid-Search), together with proofs of the specification
claims about it.  Python floats are modelled as rationals, content
strings as lists of characters, and Python dictionaries as
insertion-ordered association lists with the source's overwrite
behaviour.  Display-only metadata fields (title, author, url,
timestamp) influence none of the verified properties and are omitted
from the records.
-/

/-- One candidate returned by a retrieval modality (the result dicts of
`_vector_search` / `_keyword_search`): document id and the score the
adapter attached. -/
structure Hit where
  id : String
  score : ℚ
  deriving DecidableEq

/-- One fused entry produced by `_rrf_fusion`: mirrors the dict built at
`server.py` lines 309-321 (id, total score, both per-modality
contributions, and the per-modality ranks, `none` when the document was
absent from that modality). -/
structure FusedEntry where
  id : String
  score : ℚ
  vectorScore : ℚ
  keywordScore : ℚ
  vectorRank : Option Nat
  keywordRank : Option Nat
  deriving DecidableEq

/-- Line 233 of `server.py`: `max(0.0, min(1.0, (score + 2) / 4))`. -/
def normalizeKeyword (rawScore : ℚ) : ℚ :=
  max 0 (min 1 ((rawScore + 2) / 4))

/-- Line 175 of `server.py`: similarity is `1 / (1 + distance)` when
`distance > 0`, else `1.0`. -/
def vectorSimilarity (distance : ℚ) : ℚ :=
  if 0 < distance then 1 / (1 + distance) else 1

/-- The vector adapter (`_vector_search`, lines 164-188) turns each
backend row (document id, L2 distance) into a hit scored with
`vectorSimilarity`. -/
def vectorAdapter (backendRows : List (String × ℚ)) : List Hit :=
  backendRows.map (fun r => ⟨r.1, vectorSimilarity r.2⟩)

/-- The keyword adapter (`_keyword_search`, lines 226-244) attaches the
clamped normalized score to each selected row (document id, raw BM25
score); the top-k argsort selection that produced `selectedRows` is
index bookkeeping and does not touch the scores. -/
def keywordAdapter (selectedRows : List (String × ℚ)) : List Hit :=
  selectedRows.map (fun r => ⟨r.1, normalizeKeyword r.2⟩)

/-- The 1-based rank assignments made by the `enumerate(results, 1)`
loops of `_rrf_fusion` (lines 271-278), in assignment order. -/
def rankMap (hits : List Hit) : List (String × Nat) :=
  hits.enum.map (fun p => (p.2.id, p.1 + 1))

/-- Python-dict lookup over an assignment list: the last assignment to a
key wins, since repeated `d[k] = v` overwrites. -/
def lookupLast : List (String × Nat) → String → Option Nat
  | [], _ => none
  | p :: rest, i =>
    match lookupLast rest i with
    | some r => some r
    | none => if p.1 = i then some p.2 else none

/-- The per-document body of the `for doc_id in all_doc_ids` loop of
`_rrf_fusion` (lines 285-321): a rank defaults to `k + 1` when the
document is absent from a modality, each contribution is
`1 / (k + rank)`, and the recorded rank is `none` exactly when the id is
missing from that modality's map. -/
def rrfEntry (v k : List Hit) (kparam : Nat) (i : String) : FusedEntry :=
  let vrank := (lookupLast (rankMap v) i).getD (kparam + 1)
  let krank := (lookupLast (rankMap k) i).getD (kparam + 1)
  ⟨i, 1 / ((kparam : ℚ) + vrank) + 1 / ((kparam : ℚ) + krank),
    1 / ((kparam : ℚ) + vrank), 1 / ((kparam : ℚ) + krank),
    lookupLast (rankMap v) i, lookupLast (rankMap k) i⟩

/-- Descending-by-score order on fused entries, modelling the stable
`rrf_scores.sort(key=lambda x: x['score'], reverse=True)` of line 324. -/
def fusedGE (a b : FusedEntry) : Prop := b.score ≤ a.score

instance : DecidableRel fusedGE :=
  fun a b => inferInstanceAs (Decidable (b.score ≤ a.score))

instance : IsTotal FusedEntry fusedGE := ⟨fun a b => le_total b.score a.score⟩

instance : IsTrans FusedEntry fusedGE := ⟨fun _ _ _ h1 h2 => le_trans h2 h1⟩

/-- Descending-by-score order on hits, modelling the stable
`fused_results.sort(key=lambda x: x.get('score', 0), reverse=True)` of
line 405. -/
def hitGE (a b : Hit) : Prop := b.score ≤ a.score

instance : DecidableRel hitGE :=
  fun a b => inferInstanceAs (Decidable (b.score ≤ a.score))

instance : IsTotal Hit hitGE := ⟨fun a b => le_total b.score a.score⟩

instance : IsTrans Hit hitGE := ⟨fun _ _ _ h1 h2 => le_trans h2 h1⟩

/-- The entry list built by the `for doc_id in all_doc_ids` loop
(lines 284-321) for a given enumeration `ids` of the id set.  The guard
mirrors the `if doc_info:` check of lines 296-308: an id contributes an
entry only when some hit in either input list carries it. -/
def rrfCandidates (v k : List Hit) (kparam : Nat) (ids : List String) :
    List FusedEntry :=
  ids.filterMap (fun i =>
    if (v.any fun h => h.id == i) || (k.any fun h => h.id == i) then
      some (rrfEntry v k kparam i)
    else none)

/-- The body of `_rrf_fusion` with the iteration order of `all_doc_ids` made
explicit: line 285 iterates a Python `set`, whose order the language
does not fix, so the enumeration is a parameter. -/
def rrfFusionOrder (v k : List Hit) (ids : List String) (top_k kparam : Nat) :
    List FusedEntry :=
  (List.insertionSort fusedGE (rrfCandidates v k kparam ids)).take top_k

/-- One concrete enumeration of `set(vector ids + keyword ids)`
(line 281): the deduplicated concatenation of the two id lists. -/
def unionIds (v k : List Hit) : List String :=
  (v.map Hit.id ++ k.map Hit.id).dedup

/-- The call `_rrf_fusion(vector_results, keyword_results, top_k, k)` under the
canonical enumeration of the document-id set. -/
def rrfFusion (v k : List Hit) (top_k kparam : Nat) : List FusedEntry :=
  rrfFusionOrder v k (unionIds v k) top_k kparam

/-- Python dict assignment `all_results[r['id']] = r` on an
insertion-ordered association list: overwrite in place when the id is
already present, else append. -/
def dictInsert (m : List Hit) (h : Hit) : List Hit :=
  if m.any fun x => x.id == h.id then
    m.map (fun x => if x.id = h.id then h else x)
  else m ++ [h]

/-- The keyword pass of the simple branch (lines 400-402): insert only
when the id is not already present. -/
def kwInsert (m : List Hit) (h : Hit) : List Hit :=
  if m.any fun x => x.id == h.id then m else m ++ [h]

/-- The `else` (simple-merge) branch of `HybridSearchEngine.search`
(lines 396-406): vector hits first, keyword hits only for ids not yet
present, then a stable sort by score descending and truncation. -/
def simpleMerge (v k : List Hit) (top_k : Nat) : List Hit :=
  let merged := k.foldl kwInsert (v.foldl dictInsert [])
  (List.insertionSort hitGE merged).take top_k

/-- The fusion dispatch of `HybridSearchEngine.search` (lines 389-406),
as a function of the two adapter result lists, which the method computes
unconditionally at lines 382-383 before dispatching.  `k = 60` is the
`_rrf_fusion` default used by both rank-fusion branches.  Any method
other than "rrf" and "weighted" falls into the `else` (simple) branch;
no branch can fail. -/
def searchFusion (method : String) (v k : List Hit) (top_k : Nat) :
    List FusedEntry ⊕ List Hit :=
  if method = "rrf" then Sum.inl (rrfFusion v k top_k 60)
  else if method = "weighted" then Sum.inl (rrfFusion v k top_k 60)
  else Sum.inr (simpleMerge v k top_k)

/-- Document ids of a dispatch result, whichever branch produced it. -/
def fusedIds : List FusedEntry ⊕ List Hit → List String
  | Sum.inl l => l.map FusedEntry.id
  | Sum.inr l => l.map Hit.id

/-- Python `content.split('。')` on a character list: the empty string
splits to `[""]` and a trailing terminator yields a final empty
sentence, as `str.split` does. -/
def splitOnChar (c : Char) : List Char → List (List Char)
  | [] => [[]]
  | x :: rest =>
    let r := splitOnChar c rest
    if x = c then [] :: r
    else
      match r with
      | [] => [[x]]
      | hd :: tl => (x :: hd) :: tl

/-- The greedy sentence-accumulation loop of `_create_summary`
(lines 347-356): take the next sentence while
`len(summary) + len(sentence) + 1 <= max_length`, joining with the
terminator when the accumulator is nonempty, and stop at the first
sentence that does not fit. -/
def summaryLoop (maxLength : Nat) : List (List Char) → List Char → List Char
  | [], acc => acc
  | s :: rest, acc =>
    if acc.length + s.length + 1 ≤ maxLength then
      summaryLoop maxLength rest (if acc = [] then s else acc ++ '。' :: s)
    else acc

/-- The method `_create_summary` (lines 328-362): empty content stays empty, short
content is returned unchanged, otherwise greedy sentence accumulation
plus a trailing terminator, falling back to a hard character cut plus
`...` when not even one sentence fit. -/
def createSummary (content : List Char) (maxLength : Nat) : List Char :=
  if content = [] then []
  else if content.length ≤ maxLength then content
  else
    let acc := summaryLoop maxLength (splitOnChar '。' content) []
    if acc = [] then content.take maxLength ++ ['.', '.', '.']
    else acc ++ ['。']

/-- C9: summary generation on empty content returns the empty string for
every maximum length; neither a terminator nor an ellipsis marker is
appended. -/
theorem C9_empty_content_empty_summary (maxLength : Nat) :
    createSummary [] maxLength = [] := by
  simp [createSummary]

/-- C7: the keyword normalizer maps a raw score of exactly -2 to 0 and
exactly 2 to 1, always lands in [0, 1], and saturates at 0 below -2 and
at 1 above 2. -/
theorem C7_keyword_normalization :
    normalizeKeyword (-2) = 0 ∧ normalizeKeyword 2 = 1 ∧
    ∀ x : ℚ, 0 ≤ normalizeKeyword x ∧ normalizeKeyword x ≤ 1 ∧
      (x < -2 → normalizeKeyword x = 0) ∧ (2 < x → normalizeKeyword x = 1) := by
  refine ⟨by norm_num [normalizeKeyword], by norm_num [normalizeKeyword], fun x => ?_⟩
  refine ⟨le_max_left 0 _, max_le (by norm_num) (min_le_left 1 _), fun hlt => ?_, fun hgt => ?_⟩
  · have hneg : (x + 2) / 4 ≤ 0 := by linarith
    have h1 : min 1 ((x + 2) / 4) = (x + 2) / 4 :=
      min_eq_right (by linarith)
    simp only [normalizeKeyword, h1]
    exact max_eq_left hneg
  · have h1 : (1 : ℚ) ≤ (x + 2) / 4 := by linarith
    have h2 : min 1 ((x + 2) / 4) = 1 := min_eq_left h1
    simp only [normalizeKeyword, h2]
    exact max_eq_right (by norm_num)

/-- C7 witness: the normalizer evaluated at the concrete out-of-range
raw scores -3 and 3 saturates at 0 and 1 respectively. -/
theorem C7_keyword_normalization_witness :
    normalizeKeyword (-3) = 0 ∧ normalizeKeyword 3 = 1 :=
  ⟨(C7_keyword_normalization.2.2 (-3)).2.2.1 (by norm_num),
   (C7_keyword_normalization.2.2 3).2.2.2 (by norm_num)⟩

/-- The greedy loop never grows the accumulator beyond the budget: every
accepted sentence passes the `+ 1`-guarded length check first. -/
theorem summaryLoop_length_le (maxLength : Nat) :
    ∀ (sentences : List (List Char)) (acc : List Char),
      acc.length ≤ maxLength →
      (summaryLoop maxLength sentences acc).length ≤ maxLength := by
  intro sentences
  induction sentences with
  | nil => intro acc hacc; simpa [summaryLoop] using hacc
  | cons s rest ih =>
    intro acc hacc
    by_cases hfit : acc.length + s.length + 1 ≤ maxLength
    · rw [summaryLoop, if_pos hfit]
      apply ih
      by_cases hempty : acc = []
      · subst hempty
        simp only [if_pos rfl]
        simpa using Nat.le_of_succ_le (by simpa using hfit)
      · rw [if_neg hempty]
        simp only [List.length_append, List.length_cons]
        omega
    · rw [summaryLoop, if_neg hfit]
      exact hacc

/-- C6: for content longer than the maximum length for which the greedy
accumulation over the sentences (content split on `。`) is nonempty —
i.e. at least one whole sentence fits within the budget — the generated
summary is exactly that greedy accumulation plus one trailing
terminator, and its length exceeds the maximum by at most the length of
that one terminator character. -/
theorem C6_summary_sentence_boundary (content : List Char) (maxLength : Nat)
    (hlong : maxLength < content.length)
    (hfit : summaryLoop maxLength (splitOnChar '。' content) [] ≠ []) :
    createSummary content maxLength
      = summaryLoop maxLength (splitOnChar '。' content) [] ++ ['。'] ∧
    (createSummary content maxLength).length ≤ maxLength + 1 := by
  have hne : content ≠ [] := by
    intro h
    subst h
    simp at hlong
  have hnotshort : ¬ content.length ≤ maxLength := by omega
  have hform : createSummary content maxLength
      = summaryLoop maxLength (splitOnChar '。' content) [] ++ ['。'] := by
    rw [createSummary, if_neg hne, if_neg hnotshort]
    simp only [if_neg hfit]
  refine ⟨hform, ?_⟩
  rw [hform]
  have hlen : (summaryLoop maxLength (splitOnChar '。' content) []).length ≤ maxLength :=
    summaryLoop_length_le maxLength _ [] (by simp)
  simp only [List.length_append, List.length_cons, List.length_nil]
  omega

/-- C6 witness: the seven-character content "ab。cdef" with budget 4 is
summarised to "ab。", one character over budget at most. -/
theorem C6_summary_sentence_boundary_witness :
    createSummary ['a', 'b', '。', 'c', 'd', 'e', 'f'] 4
      = summaryLoop 4 (splitOnChar '。' ['a', 'b', '。', 'c', 'd', 'e', 'f']) [] ++ ['。'] ∧
    (createSummary ['a', 'b', '。', 'c', 'd', 'e', 'f'] 4).length ≤ 4 + 1 :=
  C6_summary_sentence_boundary ['a', 'b', '。', 'c', 'd', 'e', 'f'] 4
    (by decide) (by decide)

/-- The id stored in a fused entry is the id it was built for. -/
theorem rrfEntry_id (v k : List Hit) (kp : Nat) (i : String) :
    (rrfEntry v k kp i).id = i := rfl

/-- Every entry of a rank-fusion output is the `rrfEntry` of some id of
the enumeration it was run with. -/
theorem mem_rrfFusionOrder {v k : List Hit} {ids : List String}
    {tk kp : Nat} {e : FusedEntry} (he : e ∈ rrfFusionOrder v k ids tk kp) :
    ∃ i ∈ ids, e = rrfEntry v k kp i := by
  unfold rrfFusionOrder at he
  have h1 := List.mem_of_mem_take he
  have h2 := (List.perm_insertionSort fusedGE _).subset h1
  rw [rrfCandidates, List.mem_filterMap] at h2
  obtain ⟨i, hi, hfi⟩ := h2
  refine ⟨i, hi, ?_⟩
  split at hfi
  · exact (Option.some.inj hfi).symm
  · simp at hfi

/-- C3: the "weighted" fusion branch produces exactly the same fused
result list as the "rrf" branch for every pair of candidate lists and
every top-k: both dispatch to the same `_rrf_fusion` call. -/
theorem C3_weighted_equals_rrf (v k : List Hit) (top_k : Nat) :
    searchFusion "weighted" v k top_k = searchFusion "rrf" v k top_k := by
  simp [searchFusion]

/-- C2: the rank-reciprocal fused score of a document present in both
modalities at ranks r1 and r2 is `1/(k+r1) + 1/(k+r2)`; a document
present in exactly one modality at rank r scores
`1/(k+r) + 1/(k+(k+1))`, the absent modality contributing the fixed
penalty rank `k+1`; and every entry of the fusion output carries exactly
the score so computed for its id. -/
theorem C2_rrf_score_formula (v k : List Hit) (tk kparam : Nat) (i : String) :
    (∀ r1 r2 : Nat, lookupLast (rankMap v) i = some r1 →
        lookupLast (rankMap k) i = some r2 →
        (rrfEntry v k kparam i).score
          = 1 / ((kparam : ℚ) + r1) + 1 / ((kparam : ℚ) + r2)) ∧
    (∀ r : Nat, lookupLast (rankMap v) i = some r →
        lookupLast (rankMap k) i = none →
        (rrfEntry v k kparam i).score
          = 1 / ((kparam : ℚ) + r) + 1 / ((kparam : ℚ) + (kparam + 1 : Nat))) ∧
    (∀ r : Nat, lookupLast (rankMap v) i = none →
        lookupLast (rankMap k) i = some r →
        (rrfEntry v k kparam i).score
          = 1 / ((kparam : ℚ) + (kparam + 1 : Nat)) + 1 / ((kparam : ℚ) + r)) ∧
    (∀ e ∈ rrfFusion v k tk kparam, e = rrfEntry v k kparam e.id) := by
  refine ⟨fun r1 r2 h1 h2 => ?_, fun r h1 h2 => ?_, fun r h1 h2 => ?_,
    fun e he => ?_⟩
  · simp [rrfEntry, h1, h2]
  · simp [rrfEntry, h1, h2]
  · simp [rrfEntry, h1, h2]
  · obtain ⟨i, _, hei⟩ := mem_rrfFusionOrder he
    rw [hei, rrfEntry_id]

/-- C2 witness: with vector candidates [A, B] and keyword candidate [B]
at k = 60, document B (vector rank 2, keyword rank 1) scores
`1/62 + 1/61`. -/
theorem C2_rrf_score_formula_witness :
    (rrfEntry [⟨"A", 1⟩, ⟨"B", 1/2⟩] [⟨"B", 1⟩] 60 "B").score
      = 1 / ((60 : ℚ) + (2 : Nat)) + 1 / ((60 : ℚ) + (1 : Nat)) :=
  (C2_rrf_score_formula [⟨"A", 1⟩, ⟨"B", 1/2⟩] [⟨"B", 1⟩] 10 60 "B").1 2 1
    (by decide) (by decide)

/-- C1 counterexample: a request with the unrecognized fusion method
"bogus" does not fail — the dispatch silently runs the simple-merge
branch over the adapter outputs and returns a normal, nonempty result
list; no validation exists and no error value can be produced. -/
theorem C1_unknown_method_counterexample :
    searchFusion "bogus" [⟨"A", 9/10⟩] [⟨"B", 1/2⟩] 5
      = Sum.inr [⟨"A", 9/10⟩, ⟨"B", 1/2⟩] := by
  with_unfolding_all decide

/-- C1 (amended): any fusion method other than "rrf" and "weighted" is
treated exactly like "simple" — the `else` branch of the dispatch
handles it, both adapters having already been invoked unconditionally —
rather than failing with an InputError. -/
theorem C1_unknown_method_amended (method : String) (v k : List Hit)
    (top_k : Nat) (h1 : method ≠ "rrf") (h2 : method ≠ "weighted") :
    searchFusion method v k top_k = searchFusion "simple" v k top_k := by
  simp [searchFusion, h1, h2]

/-- C1 witness: the amended behaviour at the concrete method "bogus". -/
theorem C1_unknown_method_witness :
    searchFusion "bogus" [] [] 1 = searchFusion "simple" [] [] 1 :=
  C1_unknown_method_amended "bogus" [] [] 1 (by decide) (by decide)

/-- A `filterMap` whose function yields `some` on every element of the
list is a `map`. -/
theorem filterMap_eq_map_of_forall {α β : Type} {f : α → Option β} {g : α → β} :
    ∀ l : List α, (∀ a ∈ l, f a = some (g a)) → l.filterMap f = l.map g := by
  intro l hl
  induction l with
  | nil => rfl
  | cons x xs ih =>
    rw [List.filterMap_cons, hl x (by simp), List.map_cons,
      ih (fun a ha => hl a (List.mem_cons_of_mem x ha))]

/-- Every id of the union enumeration passes the `if doc_info:` guard:
it is carried by some hit of one of the two lists. -/
theorem unionIds_guard {v k : List Hit} {i : String} (hi : i ∈ unionIds v k) :
    ((v.any fun h => h.id == i) || (k.any fun h => h.id == i)) = true := by
  rw [unionIds, List.mem_dedup, List.mem_append] at hi
  simp only [Bool.or_eq_true, List.any_eq_true, beq_iff_eq]
  rcases hi with hv | hk
  · obtain ⟨h, hmem, hid⟩ := List.mem_map.mp hv
    exact Or.inl ⟨h, hmem, hid⟩
  · obtain ⟨h, hmem, hid⟩ := List.mem_map.mp hk
    exact Or.inr ⟨h, hmem, hid⟩

/-- Over the union enumeration the guarded entry construction of
`_rrf_fusion` degenerates to a plain map: every id produces an entry. -/
theorem rrfCandidates_union_eq (v k : List Hit) (kp : Nat) :
    rrfCandidates v k kp (unionIds v k)
      = (unionIds v k).map (rrfEntry v k kp) := by
  rw [rrfCandidates]
  exact filterMap_eq_map_of_forall _
    (fun i hi => by rw [if_pos (unionIds_guard hi)])

/-- C4: for positive top-k, the rank-reciprocal fusion output has length
`min top_k |union of candidate ids|` and is sorted by descending fused
score. -/
theorem C4_rrf_length_sorted (v k : List Hit) (top_k kparam : Nat)
    (_htk : 0 < top_k) :
    (rrfFusion v k top_k kparam).length = min top_k (unionIds v k).length ∧
    List.Sorted fusedGE (rrfFusion v k top_k kparam) := by
  constructor
  · rw [rrfFusion, rrfFusionOrder, List.length_take,
      (List.perm_insertionSort fusedGE _).length_eq,
      rrfCandidates_union_eq, List.length_map]
  · exact List.Pairwise.sublist (List.take_sublist _ _)
      (List.sorted_insertionSort fusedGE _)

/-- C4 witness: two vector hits and one overlapping keyword hit at
top-k 2 give exactly min 2 |{A, B}| results, in sorted order. -/
theorem C4_rrf_length_sorted_witness :
    (rrfFusion [⟨"A", 1⟩, ⟨"B", 1/2⟩] [⟨"B", 1⟩] 2 60).length
      = min 2 (unionIds [⟨"A", 1⟩, ⟨"B", 1/2⟩] [⟨"B", 1⟩]).length ∧
    List.Sorted fusedGE (rrfFusion [⟨"A", 1⟩, ⟨"B", 1/2⟩] [⟨"B", 1⟩] 2 60) :=
  C4_rrf_length_sorted [⟨"A", 1⟩, ⟨"B", 1/2⟩] [⟨"B", 1⟩] 2 60 (by decide)

/-- The document ids of a rank-fusion run over the canonical enumeration
are pairwise distinct. -/
theorem rrfFusion_ids_nodup (v k : List Hit) (tk kp : Nat) :
    ((rrfFusion v k tk kp).map FusedEntry.id).Nodup := by
  have hentries : ((unionIds v k).map (rrfEntry v k kp)).map FusedEntry.id
      = unionIds v k := by
    rw [List.map_map]
    have : ∀ i ∈ unionIds v k, (FusedEntry.id ∘ rrfEntry v k kp) i = id i :=
      fun i _ => rrfEntry_id v k kp i
    rw [List.map_congr_left this, List.map_id]
  have hmapperm : ((List.insertionSort fusedGE
        ((unionIds v k).map (rrfEntry v k kp))).map FusedEntry.id).Perm
      (((unionIds v k).map (rrfEntry v k kp)).map FusedEntry.id) :=
    List.Perm.map _ (List.perm_insertionSort fusedGE _)
  have hnodup := hmapperm.symm.nodup (by rw [hentries]; exact List.nodup_dedup _)
  rw [rrfFusion, rrfFusionOrder, rrfCandidates_union_eq, List.map_take]
  exact List.Nodup.sublist (List.take_sublist _ _) hnodup

/-- A dict assignment never changes the list of ids when the id is
present and appends a fresh id otherwise, so id-distinctness survives. -/
theorem dictInsert_ids_nodup {m : List Hit} (hm : (m.map Hit.id).Nodup)
    (h : Hit) : ((dictInsert m h).map Hit.id).Nodup := by
  rw [dictInsert]
  split
  · have : (m.map (fun x => if x.id = h.id then h else x)).map Hit.id
        = m.map Hit.id := by
      rw [List.map_map]
      apply List.map_congr_left
      intro x _
      by_cases hxe : x.id = h.id
      · simp [Function.comp, hxe]
      · simp [Function.comp, hxe]
    rw [this]
    exact hm
  · rename_i hcond
    rw [List.map_append]
    simp only [List.map_cons, List.map_nil]
    refine List.nodup_append.mpr ⟨hm, List.nodup_singleton _, ?_⟩
    rw [List.disjoint_singleton]
    intro hin
    obtain ⟨x, hx, hxid⟩ := List.mem_map.mp hin
    exact hcond (List.any_eq_true.mpr ⟨x, hx, by simp [hxid]⟩)

/-- Conditional insertion preserves id-distinctness: it only appends ids that are
absent. -/
theorem kwInsert_ids_nodup {m : List Hit} (hm : (m.map Hit.id).Nodup)
    (h : Hit) : ((kwInsert m h).map Hit.id).Nodup := by
  rw [kwInsert]
  split
  · exact hm
  · rename_i hcond
    rw [List.map_append]
    simp only [List.map_cons, List.map_nil]
    refine List.nodup_append.mpr ⟨hm, List.nodup_singleton _, ?_⟩
    rw [List.disjoint_singleton]
    intro hin
    obtain ⟨x, hx, hxid⟩ := List.mem_map.mp hin
    exact hcond (List.any_eq_true.mpr ⟨x, hx, by simp [hxid]⟩)

/-- Folding the vector hits through dict assignment preserves
id-distinctness of the association list. -/
theorem foldl_dictInsert_ids_nodup (v : List Hit) :
    ∀ m : List Hit, (m.map Hit.id).Nodup →
      ((v.foldl dictInsert m).map Hit.id).Nodup := by
  induction v with
  | nil => intro m hm; exact hm
  | cons x xs ih => intro m hm; exact ih _ (dictInsert_ids_nodup hm x)

/-- Folding the keyword hits through conditional insertion preserves
id-distinctness. -/
theorem foldl_kwInsert_ids_nodup (k : List Hit) :
    ∀ m : List Hit, (m.map Hit.id).Nodup →
      ((k.foldl kwInsert m).map Hit.id).Nodup := by
  induction k with
  | nil => intro m hm; exact hm
  | cons x xs ih => intro m hm; exact ih _ (kwInsert_ids_nodup hm x)

/-- The document ids of a simple-merge run are pairwise distinct. -/
theorem simpleMerge_ids_nodup (v k : List Hit) (tk : Nat) :
    ((simpleMerge v k tk).map Hit.id).Nodup := by
  have hmerged : ((k.foldl kwInsert (v.foldl dictInsert [])).map Hit.id).Nodup :=
    foldl_kwInsert_ids_nodup k _ (foldl_dictInsert_ids_nodup v [] (by simp))
  have hperm : (List.insertionSort hitGE
        (k.foldl kwInsert (v.foldl dictInsert []))).map Hit.id
      |>.Perm ((k.foldl kwInsert (v.foldl dictInsert [])).map Hit.id) :=
    List.Perm.map _ (List.perm_insertionSort hitGE _)
  have hnodup := hperm.symm.nodup hmerged
  show ((List.take tk _).map Hit.id).Nodup
  rw [List.map_take]
  exact List.Nodup.sublist (List.take_sublist _ _) hnodup

/-- C5: under every fusion policy — rrf, weighted, simple, and even an
unrecognized method name — the document ids of the returned result list
are pairwise distinct, also when a document appears in both candidate
lists. -/
theorem C5_result_ids_distinct (method : String) (v k : List Hit)
    (top_k : Nat) : (fusedIds (searchFusion method v k top_k)).Nodup := by
  rw [searchFusion]
  split
  · exact rrfFusion_ids_nodup v k top_k 60
  · split
    · exact rrfFusion_ids_nodup v k top_k 60
    · exact simpleMerge_ids_nodup v k top_k

/-- The vector-adapter similarity always lies in (0, 1]: a positive
distance gives `1/(1+distance)` and any other distance gives 1. -/
theorem vectorSimilarity_bounds (d : ℚ) :
    0 < vectorSimilarity d ∧ vectorSimilarity d ≤ 1 := by
  rw [vectorSimilarity]
  split
  · rename_i hd
    constructor
    · exact div_pos one_pos (by linarith)
    · rw [div_le_one (by linarith)]
      linarith
  · norm_num

/-- The keyword normalizer always lies in [0, 1]. -/
theorem normalizeKeyword_bounds (s : ℚ) :
    0 ≤ normalizeKeyword s ∧ normalizeKeyword s ≤ 1 :=
  ⟨le_max_left 0 _, max_le (by norm_num) (min_le_left 1 _)⟩

/-- An element surviving a dict assignment was in the dict or is the
assigned hit. -/
theorem mem_dictInsert {m : List Hit} {h x : Hit}
    (hx : x ∈ dictInsert m h) : x ∈ m ∨ x = h := by
  rw [dictInsert] at hx
  split at hx
  · obtain ⟨y, hy, hyx⟩ := List.mem_map.mp hx
    by_cases hc : y.id = h.id
    · rw [if_pos hc] at hyx
      exact Or.inr hyx.symm
    · rw [if_neg hc] at hyx
      exact Or.inl (hyx ▸ hy)
  · rcases List.mem_append.mp hx with h1 | h2
    · exact Or.inl h1
    · exact Or.inr (List.mem_singleton.mp h2)

/-- An element surviving a conditional insertion was in the dict or is
the inserted hit. -/
theorem mem_kwInsert {m : List Hit} {h x : Hit}
    (hx : x ∈ kwInsert m h) : x ∈ m ∨ x = h := by
  rw [kwInsert] at hx
  split at hx
  · exact Or.inl hx
  · rcases List.mem_append.mp hx with h1 | h2
    · exact Or.inl h1
    · exact Or.inr (List.mem_singleton.mp h2)

/-- Elements of the vector-pass fold come from the seed dict or from the
vector list. -/
theorem mem_foldl_dictInsert (v : List Hit) :
    ∀ {m : List Hit} {x : Hit}, x ∈ v.foldl dictInsert m → x ∈ m ∨ x ∈ v := by
  induction v with
  | nil => intro m x hx; exact Or.inl hx
  | cons a as ih =>
    intro m x hx
    rcases ih hx with hm | hv
    · rcases mem_dictInsert hm with h1 | h2
      · exact Or.inl h1
      · exact Or.inr (by simp [h2])
    · exact Or.inr (List.mem_cons_of_mem a hv)

/-- Elements of the keyword-pass fold come from the seed dict or from
the keyword list. -/
theorem mem_foldl_kwInsert (k : List Hit) :
    ∀ {m : List Hit} {x : Hit}, x ∈ k.foldl kwInsert m → x ∈ m ∨ x ∈ k := by
  induction k with
  | nil => intro m x hx; exact Or.inl hx
  | cons a as ih =>
    intro m x hx
    rcases ih hx with hm | hv
    · rcases mem_kwInsert hm with h1 | h2
      · exact Or.inl h1
      · exact Or.inr (by simp [h2])
    · exact Or.inr (List.mem_cons_of_mem a hv)

/-- Every element of a simple-merge output is one of the input hits. -/
theorem mem_simpleMerge {v k : List Hit} {tk : Nat} {x : Hit}
    (hx : x ∈ simpleMerge v k tk) : x ∈ v ∨ x ∈ k := by
  have h1 := List.mem_of_mem_take hx
  have h2 := (List.perm_insertionSort hitGE _).subset h1
  rcases mem_foldl_kwInsert k h2 with hm | hk
  · rcases mem_foldl_dictInsert v hm with hnil | hv
    · simp at hnil
    · exact Or.inl hv
  · exact Or.inr hk

/-- C10: every hit emitted by the vector adapter carries a similarity in
(0, 1], every hit emitted by the keyword adapter carries the clamped
normalized score in [0, 1], and consequently the simple-merge policy
sorts over per-hit scores bounded in [0, 1] for every input. -/
theorem C10_adapter_scores_bounded :
    (∀ rows : List (String × ℚ), ∀ h ∈ vectorAdapter rows,
      0 < h.score ∧ h.score ≤ 1) ∧
    (∀ rows : List (String × ℚ), ∀ h ∈ keywordAdapter rows,
      0 ≤ h.score ∧ h.score ≤ 1) ∧
    (∀ vrows krows : List (String × ℚ), ∀ tk : Nat,
      ∀ h ∈ simpleMerge (vectorAdapter vrows) (keywordAdapter krows) tk,
        0 ≤ h.score ∧ h.score ≤ 1) := by
  have hvec : ∀ rows : List (String × ℚ), ∀ h ∈ vectorAdapter rows,
      0 < h.score ∧ h.score ≤ 1 := by
    intro rows h hh
    obtain ⟨r, _, hr⟩ := List.mem_map.mp hh
    rw [← hr]
    exact vectorSimilarity_bounds r.2
  have hkw : ∀ rows : List (String × ℚ), ∀ h ∈ keywordAdapter rows,
      0 ≤ h.score ∧ h.score ≤ 1 := by
    intro rows h hh
    obtain ⟨r, _, hr⟩ := List.mem_map.mp hh
    rw [← hr]
    exact normalizeKeyword_bounds r.2
  refine ⟨hvec, hkw, fun vrows krows tk h hh => ?_⟩
  rcases mem_simpleMerge hh with hv | hk
  · obtain ⟨h0, h1⟩ := hvec vrows h hv
    exact ⟨le_of_lt h0, h1⟩
  · exact hkw krows h hk

/-- C10 witness: the hit produced for a backend row at distance 1 has
score 1/2, which the theorem bounds inside [0, 1] as a member of the
simple merge of concrete adapter outputs. -/
theorem C10_adapter_scores_bounded_witness :
    0 ≤ (Hit.mk "A" (1/2)).score ∧ (Hit.mk "A" (1/2)).score ≤ 1 :=
  C10_adapter_scores_bounded.2.2 [("A", 1)] [] 1 ⟨"A", 1/2⟩
    (by with_unfolding_all decide)

/-- C8 counterexample: the fusion output does depend on the incidental
iteration order of the document-id set.  With one vector hit A and one
keyword hit B, both at rank 1, the two fused scores tie; the stable sort
keys on the score alone, so the two enumerations of the same id set —
both permutations of the union — produce different output orderings. -/
theorem C8_determinism_counterexample :
    (["A", "B"] : List String).Perm (unionIds [⟨"A", 1⟩] [⟨"B", 1⟩]) ∧
    (["B", "A"] : List String).Perm (unionIds [⟨"A", 1⟩] [⟨"B", 1⟩]) ∧
    rrfFusionOrder [⟨"A", 1⟩] [⟨"B", 1⟩] ["A", "B"] 10 60
      ≠ rrfFusionOrder [⟨"A", 1⟩] [⟨"B", 1⟩] ["B", "A"] 10 60 :=
  ⟨by decide, by decide, by with_unfolding_all decide⟩

/-- C8 (amended): the sort of `_rrf_fusion` keys on the fused score
alone, with no secondary tie-break key, so the output is deterministic
only up to the iteration order of the id set: whenever the fused scores
of the enumerated ids are pairwise distinct, any two enumerations of the
same id set yield identical output; with tied scores the orderings can
differ (see the counterexample). -/
theorem C8_determinism_amended (v k : List Hit) (tk kp : Nat)
    (ids1 ids2 : List String) (hperm : ids1.Perm ids2) (hnd : ids1.Nodup)
    (hinj : ∀ a ∈ ids1, ∀ b ∈ ids1,
      (rrfEntry v k kp a).score = (rrfEntry v k kp b).score → a = b) :
    rrfFusionOrder v k ids1 tk kp = rrfFusionOrder v k ids2 tk kp := by
  have hfsome : ∀ (i : String) (e : FusedEntry),
      (if (v.any fun h => h.id == i) || (k.any fun h => h.id == i) then
        some (rrfEntry v k kp i) else none) = some e →
      e = rrfEntry v k kp i := by
    intro i e he
    split at he
    · exact (Option.some.inj he).symm
    · simp at he
  have hpermE : (rrfCandidates v k kp ids1).Perm (rrfCandidates v k kp ids2) := by
    rw [rrfCandidates, rrfCandidates]
    exact hperm.filterMap _
  have hnd' : ids1.Pairwise (fun a b => a ≠ b) := hnd
  have hne1 : (rrfCandidates v k kp ids1).Pairwise
      (fun a b => a.score ≠ b.score) := by
    rw [rrfCandidates, List.pairwise_filterMap]
    refine List.Pairwise.imp_of_mem ?_ hnd'
    intro a b ha hb hab c hc d hd hscore
    rw [Option.mem_def] at hc hd
    rw [hfsome a c hc, hfsome b d hd] at hscore
    exact hab (hinj a ha b hb hscore)
  have hsymm : ∀ {x y : FusedEntry}, x.score ≠ y.score → y.score ≠ x.score :=
    fun h => Ne.symm h
  have hne2 : (rrfCandidates v k kp ids2).Pairwise
      (fun a b => a.score ≠ b.score) :=
    (List.Perm.pairwise_iff hsymm hpermE).mp hne1
  have hp1 : (List.insertionSort fusedGE (rrfCandidates v k kp ids1)).Pairwise
      fusedGE := List.sorted_insertionSort fusedGE _
  have hp2 : (List.insertionSort fusedGE (rrfCandidates v k kp ids2)).Pairwise
      fusedGE := List.sorted_insertionSort fusedGE _
  have hneS1 : (List.insertionSort fusedGE (rrfCandidates v k kp ids1)).Pairwise
      (fun a b => a.score ≠ b.score) :=
    (List.Perm.pairwise_iff hsymm (List.perm_insertionSort fusedGE _)).mpr hne1
  have hneS2 : (List.insertionSort fusedGE (rrfCandidates v k kp ids2)).Pairwise
      (fun a b => a.score ≠ b.score) :=
    (List.Perm.pairwise_iff hsymm (List.perm_insertionSort fusedGE _)).mpr hne2
  have hstrict1 : (List.insertionSort fusedGE (rrfCandidates v k kp ids1)).Pairwise
      (fun a b => b.score < a.score) :=
    (hp1.and hneS1).imp fun h => lt_of_le_of_ne h.1 (Ne.symm h.2)
  have hstrict2 : (List.insertionSort fusedGE (rrfCandidates v k kp ids2)).Pairwise
      (fun a b => b.score < a.score) :=
    (hp2.and hneS2).imp fun h => lt_of_le_of_ne h.1 (Ne.symm h.2)
  haveI : IsAntisymm FusedEntry (fun a b => b.score < a.score) :=
    ⟨fun a b h1 h2 => absurd (lt_trans h1 h2) (lt_irrefl _)⟩
  have hsp : (List.insertionSort fusedGE (rrfCandidates v k kp ids1)).Perm
      (List.insertionSort fusedGE (rrfCandidates v k kp ids2)) :=
    (List.perm_insertionSort fusedGE _).trans
      (hpermE.trans (List.perm_insertionSort fusedGE _).symm)
  have heq := List.eq_of_perm_of_sorted hsp hstrict1 hstrict2
  rw [rrfFusionOrder, rrfFusionOrder, heq]

/-- C8 witness: with vector hits [A, B] and no keyword hits the fused
scores are distinct, and the two enumerations of the id set produce the
same output. -/
theorem C8_determinism_amended_witness :
    rrfFusionOrder [⟨"A", 1⟩, ⟨"B", 1/2⟩] [] ["A", "B"] 10 60
      = rrfFusionOrder [⟨"A", 1⟩, ⟨"B", 1/2⟩] [] ["B", "A"] 10 60 := by
  apply C8_determinism_amended [⟨"A", 1⟩, ⟨"B", 1/2⟩] [] 10 60 ["A", "B"] ["B", "A"]
    (by decide) (by decide)
  intro a ha b hb h
  have hA : lookupLast (rankMap [(⟨"A", 1⟩ : Hit), ⟨"B", 1/2⟩]) "A" = some 1 := by
    decide
  have hB : lookupLast (rankMap [(⟨"A", 1⟩ : Hit), ⟨"B", 1/2⟩]) "B" = some 2 := by
    decide
  have hn : ∀ i, lookupLast (rankMap ([] : List Hit)) i = none := fun i => rfl
  fin_cases ha <;> fin_cases hb <;>
    first
      | rfl
      | (exfalso
         simp only [rrfEntry, hA, hB, hn, Option.getD_some, Option.getD_none] at h
         norm_num at h)
